import Mathlib

/-!
Verification of the N-Queens search repository (state.py, heuristics.py,
algorithms.py, main.py).

The Python code is shallowly embedded: `NQueensState` mirrors the class in
state.py (`positions : List Int`, sentinel `-1` for an empty row), the two
heuristics mirror heuristics.py, and the A* / greedy search loops of
algorithms.py are embedded as fuel-indexed loops over explicit frontier /
bookkeeping records.  Wall-clock time (`time.time() - start_time`) is
modelled by an oracle `clock : Nat -> Nat` giving the elapsed time observed
at the top of each loop iteration.  Python's `heapq` is modelled as a
multiset (list) of entries from which the minimum under the tuple order is
extracted; `id(state)` — whose only property the algorithm relies on is
that distinct pushes carry distinct tie-break keys — is modelled as a
monotone insertion counter.
-/

set_option maxRecDepth 4000

/-- Embedding of the class `NQueensState` of state.py: `positions.length = n`
for every state the program builds; `positions[r] = -1` means row `r` is
empty, otherwise it is the column of the queen in row `r`. -/
structure NQueensState where
  n : Nat
  positions : List Int
deriving DecidableEq

/-- All ordered pairs `(l[i], l[j])` with `i < j`, in the order the nested
`for i / for j in range(i+1, ...)` loops of state.py visit them. -/
def pairsOf {α : Type} : List α → List (α × α)
  | [] => []
  | x :: xs => xs.map (fun y => (x, y)) ++ pairsOf xs

/-- The conflict test shared by `is_valid` and `count_conflicts` in state.py:
same column, or same diagonal (`abs(r1-r2) == abs(c1-c2)`). -/
def conflictB (p : (Int × Int) × (Int × Int)) : Bool :=
  p.1.2 == p.2.2 || (p.1.1 - p.2.1).natAbs == (p.1.2 - p.2.2).natAbs

/-- First index holding `-1`, as Python's `positions.index(-1)` computes it. -/
def indexOfEmpty : List Int → Option Nat
  | [] => none
  | x :: xs => if x = -1 then some 0 else (indexOfEmpty xs).map (· + 1)

namespace NQueensState

/-- The list `queens` built by both `is_valid` and `count_conflicts`:
`(row, positions[row])` for every row in `range(n)` whose entry is not `-1`.
(States built by the program always satisfy `positions.length = n`, so the
`get?` never misses.) -/
def queensOf (s : NQueensState) : List (Int × Int) :=
  (List.range s.n).filterMap (fun r =>
    match s.positions.get? r with
    | some c => if c = -1 then none else some ((r : Int), c)
    | none => none)

/-- `NQueensState.count_conflicts` of state.py: number of attacking pairs. -/
def count_conflicts (s : NQueensState) : Nat :=
  (pairsOf s.queensOf).countP conflictB

/-- `NQueensState.is_valid` of state.py: no pair of placed queens attacks. -/
def is_valid (s : NQueensState) : Bool :=
  (pairsOf s.queensOf).all (fun p => !conflictB p)

/-- `NQueensState.is_goal` of state.py: all rows filled and zero conflicts. -/
def is_goal (s : NQueensState) : Bool :=
  if s.positions.contains (-1) then false else s.count_conflicts == 0

/-- `NQueensState.get_next_empty_row` of state.py. -/
def get_next_empty_row (s : NQueensState) : Option Nat :=
  indexOfEmpty s.positions

/-- `NQueensState.get_successors` of state.py: for each column of the first
empty row, build the state placing a queen there and append it to the
accumulator iff `is_valid` accepts it. -/
def get_successors (s : NQueensState) : List NQueensState :=
  match s.get_next_empty_row with
  | none => []
  | some next_row =>
      (List.range s.n).foldl (fun successors (col : Nat) =>
        let new_state : NQueensState := ⟨s.n, s.positions.set next_row ((col : Int))⟩
        if new_state.is_valid then successors ++ [new_state] else successors) []

/-- `NQueensState.count_queens` of state.py. -/
def count_queens (s : NQueensState) : Nat :=
  s.positions.countP (fun pos => pos != -1)

end NQueensState

/-- `NQueensState(n)` with `positions=None`: the empty board. -/
def emptyState (n : Nat) : NQueensState :=
  ⟨n, List.replicate n (-1)⟩

/-- `attacking_pairs_heuristic` of heuristics.py. -/
def attacking_pairs_heuristic (state : NQueensState) : Int :=
  state.count_conflicts

/-- `remaining_queens_heuristic` of heuristics.py. -/
def remaining_queens_heuristic (state : NQueensState) : Int :=
  (state.n : Int) - state.count_queens

example : (emptyState 1).get_successors = [⟨1, [0]⟩] := by decide
example : (emptyState 2).is_goal = false := by decide
example : (NQueensState.mk 0 []).is_goal = true := by decide
example : (NQueensState.mk 4 [1, 3, 0, 2]).is_goal = true := by decide
example : (NQueensState.mk 4 [1, 3, 0, -1]).count_queens = 3 := by decide

/-!  ##  Embedding of algorithms.py  -/

/-- Embedding of the class `SearchResult` of algorithms.py.  `execution_time`
is the elapsed-clock reading observed at the return point (the model of
`time.time() - start_time`). -/
structure SearchResult where
  algorithm : String
  n : Nat
  solution : Option NQueensState
  solution_found : Bool
  states_explored : Nat
  states_generated : Nat
  solution_depth : Nat
  execution_time : Nat
  solution_path : List NQueensState
  max_f_score : Int
  max_depth : Nat
deriving DecidableEq

/-- `SearchResult.__init__`. -/
def SearchResult.init (algorithm : String) (n : Nat) : SearchResult :=
  { algorithm := algorithm, n := n, solution := none, solution_found := false,
    states_explored := 0, states_generated := 0, solution_depth := 0,
    execution_time := 0, solution_path := [], max_f_score := 0, max_depth := 0 }

/-- Which of the `return` sites of the `search` loop produced the result:
the timeout return, the goal return, the fall-through after the `while`
loop (frontier exhausted) — plus fuel exhaustion of the embedding, which
has no Python counterpart. -/
inductive ExitReason where
  | timeout
  | goal
  | exhausted
  | fuelOut
deriving DecidableEq

/-- Extract the minimum entry (under the strict key order `lt`) from a
nonempty frontier, returning it together with the remaining entries.  This
models `heapq.heappop`: the search pushes every entry with a distinct
tie-break key, so the minimum is unique and the list order is irrelevant. -/
def selectMin {α : Type} (lt : α → α → Bool) : α → List α → α × List α
  | x, [] => (x, [])
  | x, y :: ys =>
      if lt y x then
        let p := selectMin lt y ys
        (p.1, x :: p.2)
      else
        let p := selectMin lt x ys
        (p.1, y :: p.2)

/-- Lookup in an association list used to model a Python `dict` keyed by
states; writes prepend, so the first hit is the latest write. -/
def lookupState {β : Type} (m : List (NQueensState × β)) (s : NQueensState) : Option β :=
  (m.find? (fun p => p.1 == s)).map (·.2)

/-- The `while state in came_from` path-walk of both `search` methods,
with fuel (the chains built by the searches are acyclic). -/
def pathLoop : Nat → List (NQueensState × NQueensState) → NQueensState →
    List NQueensState → List NQueensState
  | 0, _, _, path => path
  | fuel + 1, came_from, state, path =>
      match lookupState came_from state with
      | some prev => pathLoop fuel came_from prev (path ++ [state])
      | none => path

/-- Path reconstruction of the goal branch: walk `came_from` from the goal,
append the initial state, reverse. -/
def buildPath (came_from : List (NQueensState × NQueensState))
    (goal initial : NQueensState) : List NQueensState :=
  (pathLoop (came_from.length + 1) came_from goal [] ++ [initial]).reverse

/-- A frontier entry `(f, g, id, state)` of A*.  `cnt` models `id(state)`:
a tie-break key distinct for every push (see the file header). -/
structure AEntry where
  f : Int
  g : Nat
  cnt : Nat
  state : NQueensState
deriving DecidableEq

/-- Python's tuple order on `(f, g, id, ...)`; the fourth component is
never reached because `cnt` keys are pairwise distinct. -/
def AEntry.ltKey (a b : AEntry) : Bool :=
  decide (a.f < b.f) ||
    (a.f == b.f && (decide (a.g < b.g) || (a.g == b.g && decide (a.cnt < b.cnt))))

/-- The mutable locals of `AStarSearch.search` between loop iterations. -/
structure AState where
  open_set : List AEntry
  g_score : List (NQueensState × Nat)
  came_from : List (NQueensState × NQueensState)
  states_generated : Nat
  states_explored : Nat
  max_depth : Nat
  max_f_score : Int
  counter : Nat
deriving DecidableEq

/-- The successor-processing `for` loop of `AStarSearch.search`. -/
def astarExpand (h : NQueensState → Int) (current_state : NQueensState)
    (current_g : Nat) (st : AState) : List NQueensState → AState
  | [] => st
  | successor :: rest =>
      let st := { st with states_generated := st.states_generated + 1 }
      let tentative_g := current_g + 1
      let better := match lookupState st.g_score successor with
        | none => true
        | some gv => tentative_g < gv
      let st :=
        if better then
          { st with
            g_score := (successor, tentative_g) :: st.g_score,
            came_from := (successor, current_state) :: st.came_from,
            open_set := st.open_set ++
              [⟨(tentative_g : Int) + h successor, tentative_g, st.counter, successor⟩],
            counter := st.counter + 1 }
        else st
      astarExpand h current_state current_g st rest

/-- The result object as populated by the timeout and frontier-exhaustion
returns of `AStarSearch.search` (`solution_found` stays at its initial
`False`). -/
def astarPartialResult (initial_state : NQueensState) (t : Nat) (st : AState) :
    SearchResult :=
  { SearchResult.init "A*" initial_state.n with
    states_explored := st.states_explored,
    states_generated := st.states_generated,
    max_depth := st.max_depth,
    max_f_score := st.max_f_score,
    execution_time := t }

/-- The bookkeeping updates performed right after `heappop`: drop the popped
entry, `states_explored += 1`, update `max_depth` and `max_f_score`. -/
def astarPopState (st : AState) (e : AEntry) (rest : List AEntry) : AState :=
  { st with open_set := rest,
            states_explored := st.states_explored + 1,
            max_depth := max st.max_depth e.g,
            max_f_score := max st.max_f_score e.f }

/-- The result object as populated by the goal return of
`AStarSearch.search` (`st'` is the internal state after the pop updates). -/
def astarGoalResult (initial_state : NQueensState) (t : Nat) (e : AEntry)
    (st' : AState) : SearchResult :=
  { SearchResult.init "A*" initial_state.n with
    solution := some e.state,
    solution_found := true,
    states_explored := st'.states_explored,
    states_generated := st'.states_generated,
    solution_depth := e.g,
    max_depth := st'.max_depth,
    max_f_score := st'.max_f_score,
    execution_time := t,
    solution_path := buildPath st'.came_from e.state initial_state }

def astarStep (h : NQueensState → Int) (timeout : Nat) (clock : Nat → Nat)
    (iter : Nat) (initial_state : NQueensState) (st : AState) :
    (SearchResult × ExitReason × AState) ⊕ AState :=
  match st.open_set with
  | [] =>
      Sum.inl (astarPartialResult initial_state (clock iter) st,
        ExitReason.exhausted, st)
  | x :: xs =>
      if clock iter > timeout then
        Sum.inl (astarPartialResult initial_state (clock iter) st,
          ExitReason.timeout, st)
      else
        if (selectMin AEntry.ltKey x xs).1.state.is_goal then
          Sum.inl (astarGoalResult initial_state (clock iter)
              (selectMin AEntry.ltKey x xs).1
              (astarPopState st (selectMin AEntry.ltKey x xs).1
                (selectMin AEntry.ltKey x xs).2),
            ExitReason.goal,
            astarPopState st (selectMin AEntry.ltKey x xs).1
              (selectMin AEntry.ltKey x xs).2)
        else
          Sum.inr (astarExpand h (selectMin AEntry.ltKey x xs).1.state
            (selectMin AEntry.ltKey x xs).1.g
            (astarPopState st (selectMin AEntry.ltKey x xs).1
              (selectMin AEntry.ltKey x xs).2)
            (selectMin AEntry.ltKey x xs).1.state.get_successors)

/-- The `while open_set` loop of `AStarSearch.search`, fuel-indexed. -/
def astarLoop (h : NQueensState → Int) (timeout : Nat) (clock : Nat → Nat)
    (initial_state : NQueensState) :
    Nat → Nat → AState → SearchResult × ExitReason × AState
  | 0, iter, st =>
      (astarPartialResult initial_state (clock iter) st, ExitReason.fuelOut, st)
  | fuel + 1, iter, st =>
      match astarStep h timeout clock iter initial_state st with
      | Sum.inl out => out
      | Sum.inr st' => astarLoop h timeout clock initial_state fuel (iter + 1) st'

/-- `AStarSearch.search` of algorithms.py, also exposing the exit reason and
the final internal state. -/
def astarSearchFull (h : NQueensState → Int) (initial_state : NQueensState)
    (timeout : Nat) (clock : Nat → Nat) (fuel : Nat) :
    SearchResult × ExitReason × AState :=
  astarLoop h timeout clock initial_state fuel 0
    { open_set := [⟨0, 0, 0, initial_state⟩],
      g_score := [(initial_state, 0)],
      came_from := [],
      states_generated := 1,
      states_explored := 0,
      max_depth := 0,
      max_f_score := 0,
      counter := 1 }

/-- A frontier entry `(h, depth, id, state)` of the greedy search. -/
structure GEntry where
  h : Int
  depth : Nat
  cnt : Nat
  state : NQueensState
deriving DecidableEq

/-- Python's tuple order on `(h, depth, id, ...)`. -/
def GEntry.ltKey (a b : GEntry) : Bool :=
  decide (a.h < b.h) ||
    (a.h == b.h && (decide (a.depth < b.depth) || (a.depth == b.depth && decide (a.cnt < b.cnt))))

/-- The mutable locals of `GreedySearch.search` between loop iterations. -/
structure GState where
  open_set : List GEntry
  came_from : List (NQueensState × NQueensState)
  visited : List NQueensState
  states_generated : Nat
  states_explored : Nat
  max_depth : Nat
  counter : Nat
deriving DecidableEq

/-- The successor-processing `for` loop of `GreedySearch.search`. -/
def greedyExpand (h : NQueensState → Int) (current_state : NQueensState)
    (current_depth : Nat) (st : GState) : List NQueensState → GState
  | [] => st
  | successor :: rest =>
      let st := { st with states_generated := st.states_generated + 1 }
      let st :=
        if successor ∈ st.visited then st
        else
          { st with
            came_from := (successor, current_state) :: st.came_from,
            open_set := st.open_set ++
              [⟨h successor, current_depth + 1, st.counter, successor⟩],
            counter := st.counter + 1 }
      greedyExpand h current_state current_depth st rest

/-- The result object as populated by the timeout and frontier-exhaustion
returns of `GreedySearch.search`. -/
def greedyPartialResult (initial_state : NQueensState) (t : Nat) (st : GState) :
    SearchResult :=
  { SearchResult.init "Busca Gulosa" initial_state.n with
    states_explored := st.states_explored,
    states_generated := st.states_generated,
    max_depth := st.max_depth,
    execution_time := t }

/-- The updates performed when a popped state is not yet visited: mark it
visited, `states_explored += 1`, update `max_depth` (the popped entry was
already dropped from `open_set`). -/
def greedyVisitState (st : GState) (e : GEntry) : GState :=
  { st with visited := e.state :: st.visited,
            states_explored := st.states_explored + 1,
            max_depth := max st.max_depth e.depth }

/-- The result object as populated by the goal return of
`GreedySearch.search`. -/
def greedyGoalResult (initial_state : NQueensState) (t : Nat) (e : GEntry)
    (st' : GState) : SearchResult :=
  { SearchResult.init "Busca Gulosa" initial_state.n with
    solution := some e.state,
    solution_found := true,
    states_explored := st'.states_explored,
    states_generated := st'.states_generated,
    solution_depth := e.depth,
    max_depth := st'.max_depth,
    execution_time := t,
    solution_path := buildPath st'.came_from e.state initial_state }

/-- One iteration of the `while open_set` loop of `GreedySearch.search`. -/
def greedyStep (h : NQueensState → Int) (timeout : Nat) (clock : Nat → Nat)
    (iter : Nat) (initial_state : NQueensState) (st : GState) :
    (SearchResult × ExitReason × GState) ⊕ GState :=
  match st.open_set with
  | [] =>
      Sum.inl (greedyPartialResult initial_state (clock iter) st,
        ExitReason.exhausted, st)
  | x :: xs =>
      if clock iter > timeout then
        Sum.inl (greedyPartialResult initial_state (clock iter) st,
          ExitReason.timeout, st)
      else
        if (selectMin GEntry.ltKey x xs).1.state ∈ st.visited then
          Sum.inr { st with open_set := (selectMin GEntry.ltKey x xs).2 }
        else
          if (selectMin GEntry.ltKey x xs).1.state.is_goal then
            Sum.inl (greedyGoalResult initial_state (clock iter)
                (selectMin GEntry.ltKey x xs).1
                (greedyVisitState { st with
                    open_set := (selectMin GEntry.ltKey x xs).2 }
                  (selectMin GEntry.ltKey x xs).1),
              ExitReason.goal,
              greedyVisitState { st with
                  open_set := (selectMin GEntry.ltKey x xs).2 }
                (selectMin GEntry.ltKey x xs).1)
          else
            Sum.inr (greedyExpand h (selectMin GEntry.ltKey x xs).1.state
              (selectMin GEntry.ltKey x xs).1.depth
              (greedyVisitState { st with
                  open_set := (selectMin GEntry.ltKey x xs).2 }
                (selectMin GEntry.ltKey x xs).1)
              (selectMin GEntry.ltKey x xs).1.state.get_successors)

/-- The `while open_set` loop of `GreedySearch.search`, fuel-indexed. -/
def greedyLoop (h : NQueensState → Int) (timeout : Nat) (clock : Nat → Nat)
    (initial_state : NQueensState) :
    Nat → Nat → GState → SearchResult × ExitReason × GState
  | 0, iter, st =>
      (greedyPartialResult initial_state (clock iter) st, ExitReason.fuelOut, st)
  | fuel + 1, iter, st =>
      match greedyStep h timeout clock iter initial_state st with
      | Sum.inl out => out
      | Sum.inr st' => greedyLoop h timeout clock initial_state fuel (iter + 1) st'

/-- `GreedySearch.search` of algorithms.py, also exposing the exit reason and
the final internal state. -/
def greedySearchFull (h : NQueensState → Int) (initial_state : NQueensState)
    (timeout : Nat) (clock : Nat → Nat) (fuel : Nat) :
    SearchResult × ExitReason × GState :=
  greedyLoop h timeout clock initial_state fuel 0
    { open_set := [⟨h initial_state, 0, 0, initial_state⟩],
      came_from := [],
      visited := [],
      states_generated := 1,
      states_explored := 0,
      max_depth := 0,
      counter := 1 }

example :
    ((astarSearchFull attacking_pairs_heuristic (emptyState 1) 300 (fun _ => 0) 50).1.solution_found,
     (astarSearchFull attacking_pairs_heuristic (emptyState 1) 300 (fun _ => 0) 50).1.solution_depth,
     (astarSearchFull attacking_pairs_heuristic (emptyState 1) 300 (fun _ => 0) 50).2.1)
      = (true, 1, ExitReason.goal) := by decide

example :
    ((greedySearchFull attacking_pairs_heuristic (emptyState 2) 300 (fun _ => 0) 50).1.solution_found,
     (greedySearchFull attacking_pairs_heuristic (emptyState 2) 300 (fun _ => 0) 50).2.1)
      = (false, ExitReason.exhausted) := by decide

/-!  ##  Spec-side definitions  -/

/-- Modelled from the spec's words (§4.1, `get_successors`): "for the first
empty row, try every column 0..n−1; for each, construct a candidate state
with that (row, column) placement and keep it only if `is_valid()` holds
...  Returns the ordered sequence of accepted successors, in increasing
column order.  If no empty row exists, returns an empty sequence." -/
def getSuccessorsSpec (s : NQueensState) : List NQueensState :=
  match s.get_next_empty_row with
  | none => []
  | some next_row =>
      ((List.range s.n).map (fun (col : Nat) =>
        (⟨s.n, s.positions.set next_row ((col : Int))⟩ : NQueensState))).filter
        (fun t => t.is_valid)

/-- The standard N-Queens validity law of the spec (§8): no two entries of the
row-assignment sequence are equal, and no two indices `i ≠ j` satisfy
`|i−j| == |seq[i]−seq[j]|`. -/
def nqueensLaw (seq : List Int) : Prop :=
  ∀ i j, i < seq.length → j < seq.length → i ≠ j →
    seq.getD i 0 ≠ seq.getD j 0 ∧
    ((i : Int) - (j : Int)).natAbs ≠ (seq.getD i 0 - seq.getD j 0).natAbs

/-- `k` single-queen placements (successor-generator steps) lead from `s`
to `t`. -/
inductive reachesIn (s : NQueensState) : Nat → NQueensState → Prop
  | refl : reachesIn s 0 s
  | step {k : Nat} {m t : NQueensState} :
      reachesIn s k m → t ∈ m.get_successors → reachesIn s (k + 1) t

/-!  ##  Helper lemmas  -/

theorem foldl_filter_append {α β : Type} (p : β → Bool) (f : α → β) :
    ∀ (l : List α) (acc : List β),
      l.foldl (fun a c => if p (f c) then a ++ [f c] else a) acc
        = acc ++ (l.map f).filter p := by
  intro l
  induction l with
  | nil => intro acc; simp
  | cons x xs ih =>
      intro acc
      simp only [List.foldl_cons, List.map_cons, List.filter_cons]
      by_cases hx : p (f x)
      · rw [if_pos hx, if_pos hx, ih]
        simp
      · rw [if_neg hx, if_neg hx, ih]

/-- The successor accumulator loop equals a filter of the mapped column range. -/
theorem get_successors_eq_spec (s : NQueensState) :
    s.get_successors = getSuccessorsSpec s := by
  unfold NQueensState.get_successors getSuccessorsSpec
  cases s.get_next_empty_row with
  | none => rfl
  | some r =>
      have h2 := foldl_filter_append (fun t : NQueensState => t.is_valid)
        (fun col : Nat => (⟨s.n, s.positions.set r (col : Int)⟩ : NQueensState))
        (List.range s.n) []
      rw [List.nil_append] at h2
      exact h2

theorem mem_get_successors_is_valid {s t : NQueensState}
    (ht : t ∈ s.get_successors) : t.is_valid = true := by
  rw [get_successors_eq_spec] at ht
  unfold getSuccessorsSpec at ht
  cases h : s.get_next_empty_row with
  | none => rw [h] at ht; simp at ht
  | some r =>
      rw [h] at ht
      exact (List.mem_filter.mp ht).2

/-- C2: `get_successors()` returns exactly the valid placements in the first
empty row, one per accepted column, in increasing column order (it equals the
spec-side filter of the full column range), every returned state satisfies
`is_valid()`, and when no empty row exists the returned sequence is empty
(the spec-side definition returns `[]` for that case by definition). -/
theorem claim_C2_get_successors (s : NQueensState) :
    s.get_successors = getSuccessorsSpec s ∧
    s.get_successors.all (fun t => t.is_valid) = true := by
  refine ⟨get_successors_eq_spec s, ?_⟩
  rw [List.all_eq_true]
  intro t ht
  exact mem_get_successors_is_valid ht

theorem filterMap_eq_map_of_some {α β : Type} (f : α → Option β) (g : α → β) :
    ∀ l : List α, (∀ a ∈ l, f a = some (g a)) → l.filterMap f = l.map g := by
  intro l
  induction l with
  | nil => intro _; rfl
  | cons x xs ih =>
      intro hall
      rw [List.filterMap_cons, hall x (List.mem_cons_self x xs), List.map_cons,
        ih (fun a ha => hall a (List.mem_cons_of_mem x ha))]

theorem pairsOf_map {α β : Type} (g : α → β) :
    ∀ l : List α, pairsOf (l.map g) = (pairsOf l).map (fun p => (g p.1, g p.2)) := by
  intro l
  induction l with
  | nil => rfl
  | cons x xs ih =>
      simp only [List.map_cons, pairsOf, ih, List.map_append, List.map_map]
      rfl

theorem getD_mem_pairsOf {α : Type} (d : α) :
    ∀ (l : List α) (i j : Nat), i < j → j < l.length →
      (l.getD i d, l.getD j d) ∈ pairsOf l := by
  intro l
  induction l with
  | nil => intro i j _ hj; simp at hj
  | cons x xs ih =>
      intro i j hij hj
      cases i with
      | zero =>
          cases j with
          | zero => exact absurd hij (lt_irrefl 0)
          | succ j' =>
              simp only [List.getD_cons_zero, List.getD_cons_succ, pairsOf,
                List.mem_append]
              left
              rw [List.mem_map]
              refine ⟨xs.getD j' d, ?_, rfl⟩
              have hj' : j' < xs.length := by
                simpa [List.length_cons, Nat.succ_lt_succ_iff] using hj
              rw [List.getD_eq_getElem xs d hj']
              exact List.getElem_mem hj'
      | succ i' =>
          cases j with
          | zero => exact absurd hij (by omega)
          | succ j' =>
              simp only [List.getD_cons_succ, pairsOf, List.mem_append]
              right
              exact ih i' j' (by omega) (by simpa [List.length_cons,
                Nat.succ_lt_succ_iff] using hj)

/-- On a fully filled board of the right length, `queens` enumerates every
row with its column. -/
theorem queensOf_full (s : NQueensState) (hlen : s.positions.length = s.n)
    (hfull : ∀ x ∈ s.positions, x ≠ -1) :
    s.queensOf = (List.range s.n).map
      (fun (r : Nat) => (((r : Int)), s.positions.getD r 0)) := by
  unfold NQueensState.queensOf
  apply filterMap_eq_map_of_some
  intro r hr
  have hrn : r < s.positions.length := by
    rw [hlen]; exact List.mem_range.mp hr
  have hget : s.positions.get? r = some (s.positions.getD r 0) := by
    rw [List.get?_eq_getElem?, List.getElem?_eq_getElem hrn,
      List.getD_eq_getElem s.positions 0 hrn]
  rw [hget]
  have hne : s.positions.getD r 0 ≠ -1 := by
    apply hfull
    rw [List.getD_eq_getElem s.positions 0 hrn]
    exact List.getElem_mem hrn
  simp only []
  rw [if_neg hne]

/-- A goal state of the right length satisfies the standard N-Queens law. -/
theorem is_goal_nqueensLaw (s : NQueensState) (hlen : s.positions.length = s.n)
    (hg : s.is_goal = true) : nqueensLaw s.positions := by
  unfold NQueensState.is_goal at hg
  by_cases hc : s.positions.contains (-1)
  · rw [if_pos hc] at hg; exact absurd hg (by simp)
  · rw [if_neg hc] at hg
    have hfull : ∀ x ∈ s.positions, x ≠ -1 := by
      intro x hx hx1
      rw [hx1] at hx
      exact hc (List.elem_eq_true_of_mem hx)
    have hzero : s.count_conflicts = 0 := by simpa using hg
    have hnoconf : ∀ p ∈ pairsOf s.queensOf, ¬(conflictB p = true) := by
      unfold NQueensState.count_conflicts at hzero
      exact (List.countP_eq_zero.mp hzero)
    have key : ∀ i j, i < j → j < s.positions.length →
        s.positions.getD i 0 ≠ s.positions.getD j 0 ∧
        ((i : Int) - (j : Int)).natAbs ≠
          (s.positions.getD i 0 - s.positions.getD j 0).natAbs := by
      intro i j hij hj
      have hin : i < s.n := by rw [← hlen]; omega
      have hjn : j < s.n := by rw [← hlen]; exact hj
      have hmem : ((i : Nat), (j : Nat)) ∈ pairsOf (List.range s.n) := by
        have h0 := getD_mem_pairsOf 0 (List.range s.n) i j hij
          (by rw [List.length_range]; exact hjn)
        have hgi : (List.range s.n).getD i 0 = i := by
          rw [List.getD_eq_getElem (List.range s.n) 0
            (by rw [List.length_range]; exact hin)]
          apply List.getElem_range
        have hgj : (List.range s.n).getD j 0 = j := by
          rw [List.getD_eq_getElem (List.range s.n) 0
            (by rw [List.length_range]; exact hjn)]
          apply List.getElem_range
        rw [hgi, hgj] at h0
        exact h0
      have hpair : ((((i : Int)), s.positions.getD i 0),
          (((j : Int)), s.positions.getD j 0)) ∈ pairsOf s.queensOf := by
        rw [queensOf_full s hlen hfull, pairsOf_map]
        exact List.mem_map.mpr ⟨(i, j), hmem, rfl⟩
      have hnc := hnoconf _ hpair
      unfold conflictB at hnc
      simp only [Bool.or_eq_true, beq_iff_eq, not_or] at hnc
      exact ⟨hnc.1, hnc.2⟩
    unfold nqueensLaw
    intro i j hi hj hne
    rcases Nat.lt_or_ge i j with hij | hij
    · exact key i j hij hj
    · have hji : j < i := by omega
      have hk := key j i hji hi
      refine ⟨fun hx => hk.1 hx.symm, fun hx => hk.2 ?_⟩
      rw [show ((j : Int)) - ((i : Int)) = -(((i : Int)) - ((j : Int))) by ring,
        Int.natAbs_neg,
        show s.positions.getD j 0 - s.positions.getD i 0
          = -(s.positions.getD i 0 - s.positions.getD j 0) by ring,
        Int.natAbs_neg]
      exact hx

theorem selectMin_fst_mem {α : Type} (lt : α → α → Bool) :
    ∀ (x : α) (l : List α), (selectMin lt x l).1 = x ∨ (selectMin lt x l).1 ∈ l := by
  intro x l
  induction l generalizing x with
  | nil => left; rfl
  | cons y ys ih =>
      by_cases h : lt y x
      · simp only [selectMin, if_pos h]
        rcases ih y with h1 | h1
        · right; rw [h1]; exact List.mem_cons_self y ys
        · right; exact List.mem_cons_of_mem y h1
      · simp only [selectMin, if_neg h]
        rcases ih x with h1 | h1
        · left; exact h1
        · right; exact List.mem_cons_of_mem y h1

theorem selectMin_snd_mem {α : Type} (lt : α → α → Bool) :
    ∀ (x : α) (l : List α) (e : α), e ∈ (selectMin lt x l).2 → e = x ∨ e ∈ l := by
  intro x l
  induction l generalizing x with
  | nil => intro e he; exact absurd he (by simp [selectMin])
  | cons y ys ih =>
      intro e he
      by_cases h : lt y x
      · simp only [selectMin, if_pos h] at he
        rcases List.mem_cons.mp he with h1 | h1
        · left; exact h1
        · rcases ih y e h1 with h2 | h2
          · right; rw [h2]; exact List.mem_cons_self y ys
          · right; exact List.mem_cons_of_mem y h2
      · simp only [selectMin, if_neg h] at he
        rcases List.mem_cons.mp he with h1 | h1
        · right; rw [h1]; exact List.mem_cons_self y ys
        · rcases ih x e h1 with h2 | h2
          · left; exact h2
          · right; exact List.mem_cons_of_mem y h2

/-- Every successor is a single placement into the first empty row. -/
theorem mem_get_successors_shape {s t : NQueensState} (ht : t ∈ s.get_successors) :
    ∃ r col, s.get_next_empty_row = some r ∧ col < s.n ∧
      t = ⟨s.n, s.positions.set r ((col : Int))⟩ ∧ t.is_valid = true := by
  rw [get_successors_eq_spec] at ht
  unfold getSuccessorsSpec at ht
  cases h : s.get_next_empty_row with
  | none => rw [h] at ht; exact absurd ht (by simp)
  | some r =>
      rw [h] at ht
      have h1 := List.mem_filter.mp ht
      rcases List.mem_map.mp h1.1 with ⟨col, hcol, hco⟩
      exact ⟨r, col, rfl, List.mem_range.mp hcol, hco.symm, hco ▸ h1.2⟩

theorem mem_get_successors_n {s t : NQueensState} (ht : t ∈ s.get_successors) :
    t.n = s.n ∧ t.positions.length = s.positions.length := by
  rcases mem_get_successors_shape ht with ⟨r, col, _, _, hts, _⟩
  rw [hts]
  exact ⟨rfl, by simp⟩

/-- Well-formedness of the A* frontier: every queued state has a full-length
position list (true of the empty initial state and preserved by placement). -/
def AState.frontierWF (st : AState) : Prop :=
  ∀ e ∈ st.open_set, e.state.positions.length = e.state.n

theorem astarExpand_open_mem (h : NQueensState → Int) (cur : NQueensState) (g : Nat) :
    ∀ (succs : List NQueensState) (st : AState) (e : AEntry),
      e ∈ (astarExpand h cur g st succs).open_set →
      e ∈ st.open_set ∨ (e.state ∈ succs ∧ e.g = g + 1) := by
  intro succs
  induction succs with
  | nil => intro st e he; left; exact he
  | cons sc rest ih =>
      intro st e he
      rw [astarExpand] at he
      rcases ih _ e he with h1 | h1
      · by_cases hb : (match lookupState st.g_score sc with
          | none => true
          | some gv => decide (g + 1 < gv)) = true
        · rw [if_pos hb] at h1
          simp only at h1
          rcases List.mem_append.mp h1 with h2 | h2
          · left; exact h2
          · right
            have he2 : e = ⟨((g : Int) + 1) + h sc, g + 1, st.counter, sc⟩ := by
              simpa using h2
            rw [he2]
            exact ⟨List.mem_cons_self sc rest, rfl⟩
        · rw [if_neg hb] at h1
          left; exact h1
      · right; exact ⟨List.mem_cons_of_mem sc h1.1, h1.2⟩

theorem astarStep_inl_found {h : NQueensState → Int} {T : Nat} {clock : Nat → Nat}
    {iter : Nat} {init : NQueensState} {st : AState}
    {out : SearchResult × ExitReason × AState}
    (hwf : st.frontierWF)
    (hstep : astarStep h T clock iter init st = Sum.inl out) :
    out.1.solution_found = true →
      ∃ s, out.1.solution = some s ∧ s.is_goal = true ∧
        s.positions.length = s.n := by
  intro hfound
  cases hos : st.open_set with
  | nil =>
      simp only [astarStep, hos] at hstep
      have h1 := Sum.inl.inj hstep
      rw [← h1] at hfound
      exact absurd hfound (by simp [astarPartialResult, SearchResult.init])
  | cons x xs =>
      simp only [astarStep, hos] at hstep
      by_cases htime : clock iter > T
      · rw [if_pos htime] at hstep
        have h1 := Sum.inl.inj hstep
        rw [← h1] at hfound
        exact absurd hfound (by simp [astarPartialResult, SearchResult.init])
      · rw [if_neg htime] at hstep
        by_cases hgoal : (selectMin AEntry.ltKey x xs).1.state.is_goal = true
        · rw [if_pos hgoal] at hstep
          have h1 := Sum.inl.inj hstep
          refine ⟨(selectMin AEntry.ltKey x xs).1.state, ?_, hgoal, ?_⟩
          · rw [← h1]; rfl
          · have hm : (selectMin AEntry.ltKey x xs).1 ∈ st.open_set := by
              rw [hos]
              rcases selectMin_fst_mem AEntry.ltKey x xs with hm | hm
              · rw [hm]; exact List.mem_cons_self x xs
              · exact List.mem_cons_of_mem x hm
            exact hwf _ hm
        · rw [if_neg hgoal] at hstep
          exact absurd hstep (by simp)

theorem astarStep_inr_wf {h : NQueensState → Int} {T : Nat} {clock : Nat → Nat}
    {iter : Nat} {init : NQueensState} {st st' : AState}
    (hwf : st.frontierWF)
    (hstep : astarStep h T clock iter init st = Sum.inr st') : st'.frontierWF := by
  cases hos : st.open_set with
  | nil =>
      simp only [astarStep, hos] at hstep
      exact Sum.noConfusion hstep
  | cons x xs =>
      simp only [astarStep, hos] at hstep
      by_cases htime : clock iter > T
      · rw [if_pos htime] at hstep; exact Sum.noConfusion hstep
      · rw [if_neg htime] at hstep
        by_cases hgoal : (selectMin AEntry.ltKey x xs).1.state.is_goal = true
        · rw [if_pos hgoal] at hstep; exact Sum.noConfusion hstep
        · rw [if_neg hgoal] at hstep
          have h1 := Sum.inr.inj hstep
          rw [← h1]
          intro e he
          have hpopwf : (selectMin AEntry.ltKey x xs).1.state.positions.length
              = (selectMin AEntry.ltKey x xs).1.state.n := by
            apply hwf
            rw [hos]
            rcases selectMin_fst_mem AEntry.ltKey x xs with hm | hm
            · rw [hm]; exact List.mem_cons_self x xs
            · exact List.mem_cons_of_mem x hm
          rcases astarExpand_open_mem h _ _ _ _ e he with h2 | h2
          · rcases selectMin_snd_mem AEntry.ltKey x xs e h2 with h3 | h3
            · apply hwf; rw [hos, h3]; exact List.mem_cons_self x xs
            · apply hwf; rw [hos]; exact List.mem_cons_of_mem x h3
          · rcases mem_get_successors_n h2.1 with ⟨hn, hlen⟩
            rw [hn, hlen]
            exact hpopwf

theorem astarLoop_found_goal (h : NQueensState → Int) (T : Nat) (clock : Nat → Nat)
    (init : NQueensState) :
    ∀ (fuel iter : Nat) (st : AState), st.frontierWF →
      ((astarLoop h T clock init fuel iter st).1.solution_found = true →
        ∃ s, (astarLoop h T clock init fuel iter st).1.solution = some s ∧
          s.is_goal = true ∧ s.positions.length = s.n) := by
  intro fuel
  induction fuel with
  | zero =>
      intro iter st _ hfound
      exact absurd hfound (by simp [astarLoop, astarPartialResult, SearchResult.init])
  | succ fuel ih =>
      intro iter st hwf
      rw [astarLoop]
      cases hstep : astarStep h T clock iter init st with
      | inl out =>
          simp only []
          exact astarStep_inl_found hwf hstep
      | inr st' =>
          simp only []
          exact ih (iter + 1) st' (astarStep_inr_wf hwf hstep)

/-- Well-formedness of the greedy frontier. -/
def GState.frontierWF (st : GState) : Prop :=
  ∀ e ∈ st.open_set, e.state.positions.length = e.state.n

theorem greedyExpand_open_mem (h : NQueensState → Int) (cur : NQueensState) (d : Nat) :
    ∀ (succs : List NQueensState) (st : GState) (e : GEntry),
      e ∈ (greedyExpand h cur d st succs).open_set →
      e ∈ st.open_set ∨ (e.state ∈ succs ∧ e.depth = d + 1) := by
  intro succs
  induction succs with
  | nil => intro st e he; left; exact he
  | cons sc rest ih =>
      intro st e he
      rw [greedyExpand] at he
      rcases ih _ e he with h1 | h1
      · by_cases hb : sc ∈ st.visited
        · rw [if_pos hb] at h1
          left; exact h1
        · rw [if_neg hb] at h1
          simp only at h1
          rcases List.mem_append.mp h1 with h2 | h2
          · left; exact h2
          · right
            have he2 : e = ⟨h sc, d + 1, st.counter, sc⟩ := by simpa using h2
            rw [he2]
            exact ⟨List.mem_cons_self sc rest, rfl⟩
      · right; exact ⟨List.mem_cons_of_mem sc h1.1, h1.2⟩

theorem greedyStep_inl_found {h : NQueensState → Int} {T : Nat} {clock : Nat → Nat}
    {iter : Nat} {init : NQueensState} {st : GState}
    {out : SearchResult × ExitReason × GState}
    (hwf : st.frontierWF)
    (hstep : greedyStep h T clock iter init st = Sum.inl out) :
    out.1.solution_found = true →
      ∃ s, out.1.solution = some s ∧ s.is_goal = true ∧
        s.positions.length = s.n := by
  intro hfound
  cases hos : st.open_set with
  | nil =>
      simp only [greedyStep, hos] at hstep
      have h1 := Sum.inl.inj hstep
      rw [← h1] at hfound
      exact absurd hfound (by simp [greedyPartialResult, SearchResult.init])
  | cons x xs =>
      simp only [greedyStep, hos] at hstep
      by_cases htime : clock iter > T
      · rw [if_pos htime] at hstep
        have h1 := Sum.inl.inj hstep
        rw [← h1] at hfound
        exact absurd hfound (by simp [greedyPartialResult, SearchResult.init])
      · rw [if_neg htime] at hstep
        by_cases hvis : (selectMin GEntry.ltKey x xs).1.state ∈ st.visited
        · rw [if_pos hvis] at hstep; exact Sum.noConfusion hstep
        · rw [if_neg hvis] at hstep
          by_cases hgoal : (selectMin GEntry.ltKey x xs).1.state.is_goal = true
          · rw [if_pos hgoal] at hstep
            have h1 := Sum.inl.inj hstep
            refine ⟨(selectMin GEntry.ltKey x xs).1.state, ?_, hgoal, ?_⟩
            · rw [← h1]; rfl
            · apply hwf
              rw [hos]
              rcases selectMin_fst_mem GEntry.ltKey x xs with hm | hm
              · rw [hm]; exact List.mem_cons_self x xs
              · exact List.mem_cons_of_mem x hm
          · rw [if_neg hgoal] at hstep
            exact Sum.noConfusion hstep

theorem greedyStep_inr_wf {h : NQueensState → Int} {T : Nat} {clock : Nat → Nat}
    {iter : Nat} {init : NQueensState} {st st' : GState}
    (hwf : st.frontierWF)
    (hstep : greedyStep h T clock iter init st = Sum.inr st') : st'.frontierWF := by
  cases hos : st.open_set with
  | nil =>
      simp only [greedyStep, hos] at hstep
      exact Sum.noConfusion hstep
  | cons x xs =>
      simp only [greedyStep, hos] at hstep
      have hpopmem : (selectMin GEntry.ltKey x xs).1 ∈ st.open_set := by
        rw [hos]
        rcases selectMin_fst_mem GEntry.ltKey x xs with hm | hm
        · rw [hm]; exact List.mem_cons_self x xs
        · exact List.mem_cons_of_mem x hm
      have hrest : ∀ e ∈ (selectMin GEntry.ltKey x xs).2,
          e.state.positions.length = e.state.n := by
        intro e he
        rcases selectMin_snd_mem GEntry.ltKey x xs e he with h3 | h3
        · apply hwf; rw [hos, h3]; exact List.mem_cons_self x xs
        · apply hwf; rw [hos]; exact List.mem_cons_of_mem x h3
      by_cases htime : clock iter > T
      · rw [if_pos htime] at hstep; exact Sum.noConfusion hstep
      · rw [if_neg htime] at hstep
        by_cases hvis : (selectMin GEntry.ltKey x xs).1.state ∈ st.visited
        · rw [if_pos hvis] at hstep
          have h1 := Sum.inr.inj hstep
          rw [← h1]
          intro e he
          exact hrest e he
        · rw [if_neg hvis] at hstep
          by_cases hgoal : (selectMin GEntry.ltKey x xs).1.state.is_goal = true
          · rw [if_pos hgoal] at hstep; exact Sum.noConfusion hstep
          · rw [if_neg hgoal] at hstep
            have h1 := Sum.inr.inj hstep
            rw [← h1]
            intro e he
            rcases greedyExpand_open_mem h _ _ _ _ e he with h2 | h2
            · exact hrest e h2
            · rcases mem_get_successors_n h2.1 with ⟨hn, hlen⟩
              rw [hn, hlen]
              exact hwf _ hpopmem

theorem greedyLoop_found_goal (h : NQueensState → Int) (T : Nat) (clock : Nat → Nat)
    (init : NQueensState) :
    ∀ (fuel iter : Nat) (st : GState), st.frontierWF →
      ((greedyLoop h T clock init fuel iter st).1.solution_found = true →
        ∃ s, (greedyLoop h T clock init fuel iter st).1.solution = some s ∧
          s.is_goal = true ∧ s.positions.length = s.n) := by
  intro fuel
  induction fuel with
  | zero =>
      intro iter st _ hfound
      exact absurd hfound (by simp [greedyLoop, greedyPartialResult, SearchResult.init])
  | succ fuel ih =>
      intro iter st hwf
      rw [greedyLoop]
      cases hstep : greedyStep h T clock iter init st with
      | inl out =>
          simp only []
          exact greedyStep_inl_found hwf hstep
      | inr st' =>
          simp only []
          exact ih (iter + 1) st' (greedyStep_inr_wf hwf hstep)

/-- C1: for every search run of either algorithm (any heuristic, any board
size, any timeout/clock/fuel) that reports `solution_found = true`, the
returned solution's row-assignment sequence satisfies the N-Queens validity
law: no two entries equal, and no two distinct indices `i, j` with
`|i-j| = |seq[i]-seq[j]|`. -/
theorem claim_C1_solutions_valid (h : NQueensState → Int) (n T fuel : Nat)
    (clock : Nat → Nat) :
    ((astarSearchFull h (emptyState n) T clock fuel).1.solution_found = true →
      ∃ s, (astarSearchFull h (emptyState n) T clock fuel).1.solution = some s ∧
        nqueensLaw s.positions) ∧
    ((greedySearchFull h (emptyState n) T clock fuel).1.solution_found = true →
      ∃ s, (greedySearchFull h (emptyState n) T clock fuel).1.solution = some s ∧
        nqueensLaw s.positions) := by
  constructor
  · intro hfound
    have hwf : AState.frontierWF
        { open_set := [⟨0, 0, 0, emptyState n⟩],
          g_score := [(emptyState n, 0)],
          came_from := [],
          states_generated := 1,
          states_explored := 0,
          max_depth := 0,
          max_f_score := 0,
          counter := 1 } := by
      intro e he
      have he' : e = ⟨0, 0, 0, emptyState n⟩ := by simpa using he
      rw [he']
      simp [emptyState]
    rcases astarLoop_found_goal h T clock (emptyState n) fuel 0 _ hwf hfound with
      ⟨s, hsol, hgoal, hlen⟩
    exact ⟨s, hsol, is_goal_nqueensLaw s hlen hgoal⟩
  · intro hfound
    have hwf : GState.frontierWF
        { open_set := [⟨h (emptyState n), 0, 0, emptyState n⟩],
          came_from := [],
          visited := [],
          states_generated := 1,
          states_explored := 0,
          max_depth := 0,
          counter := 1 } := by
      intro e he
      have he' : e = ⟨h (emptyState n), 0, 0, emptyState n⟩ := by simpa using he
      rw [he']
      simp [emptyState]
    rcases greedyLoop_found_goal h T clock (emptyState n) fuel 0 _ hwf hfound with
      ⟨s, hsol, hgoal, hlen⟩
    exact ⟨s, hsol, is_goal_nqueensLaw s hlen hgoal⟩

/-- Witness for C1: the concrete `n = 4` runs of both algorithms (attacking
pairs heuristic, no timeout) do report `solution_found = true`, and the
theorem yields the validity law for their solutions. -/
theorem claim_C1_witness :
    ((astarSearchFull attacking_pairs_heuristic (emptyState 4) 300
        (fun _ => 0) 60).1.solution_found = true ∧
      (greedySearchFull attacking_pairs_heuristic (emptyState 4) 300
        (fun _ => 0) 60).1.solution_found = true) ∧
    (∃ s, (astarSearchFull attacking_pairs_heuristic (emptyState 4) 300
        (fun _ => 0) 60).1.solution = some s ∧ nqueensLaw s.positions) ∧
    (∃ s, (greedySearchFull attacking_pairs_heuristic (emptyState 4) 300
        (fun _ => 0) 60).1.solution = some s ∧ nqueensLaw s.positions) :=
  ⟨⟨by decide, by decide⟩,
    (claim_C1_solutions_valid attacking_pairs_heuristic 4 300 60
      (fun _ => 0)).1 (by decide),
    (claim_C1_solutions_valid attacking_pairs_heuristic 4 300 60
      (fun _ => 0)).2 (by decide)⟩

/-!  ##  C4: the greedy visited-set discipline  -/

/-- The greedy bookkeeping invariant: `states_explored` counts exactly the
insertions into `visited`, and no state was ever inserted twice. -/
def GState.visitedInv (st : GState) : Prop :=
  st.states_explored = st.visited.length ∧ st.visited.Nodup

theorem greedyExpand_visited (h : NQueensState → Int) (cur : NQueensState) (d : Nat) :
    ∀ (succs : List NQueensState) (st : GState),
      (greedyExpand h cur d st succs).visited = st.visited ∧
      (greedyExpand h cur d st succs).states_explored = st.states_explored := by
  intro succs
  induction succs with
  | nil => intro st; exact ⟨rfl, rfl⟩
  | cons sc rest ih =>
      intro st
      rw [greedyExpand]
      by_cases hb : sc ∈ st.visited
      · rw [if_pos hb]; exact ih _
      · rw [if_neg hb]; exact ih _

theorem greedyStep_inl_visitedInv {h : NQueensState → Int} {T : Nat}
    {clock : Nat → Nat} {iter : Nat} {init : NQueensState} {st : GState}
    {out : SearchResult × ExitReason × GState}
    (hinv : st.visitedInv)
    (hstep : greedyStep h T clock iter init st = Sum.inl out) :
    out.1.states_explored = out.2.2.visited.length ∧ out.2.2.visited.Nodup := by
  cases hos : st.open_set with
  | nil =>
      simp only [greedyStep, hos] at hstep
      have h1 := Sum.inl.inj hstep
      rw [← h1]
      exact ⟨hinv.1, hinv.2⟩
  | cons x xs =>
      simp only [greedyStep, hos] at hstep
      by_cases htime : clock iter > T
      · rw [if_pos htime] at hstep
        have h1 := Sum.inl.inj hstep
        rw [← h1]
        exact ⟨hinv.1, hinv.2⟩
      · rw [if_neg htime] at hstep
        by_cases hvis : (selectMin GEntry.ltKey x xs).1.state ∈ st.visited
        · rw [if_pos hvis] at hstep; exact Sum.noConfusion hstep
        · rw [if_neg hvis] at hstep
          by_cases hgoal : (selectMin GEntry.ltKey x xs).1.state.is_goal = true
          · rw [if_pos hgoal] at hstep
            have h1 := Sum.inl.inj hstep
            rw [← h1]
            refine ⟨?_, ?_⟩
            · simp only [greedyGoalResult, greedyVisitState, List.length_cons]
              rw [hinv.1]
            · simp only [greedyVisitState]
              exact List.nodup_cons.mpr ⟨hvis, hinv.2⟩
          · rw [if_neg hgoal] at hstep
            exact Sum.noConfusion hstep

theorem greedyStep_inr_visitedInv {h : NQueensState → Int} {T : Nat}
    {clock : Nat → Nat} {iter : Nat} {init : NQueensState} {st st' : GState}
    (hinv : st.visitedInv)
    (hstep : greedyStep h T clock iter init st = Sum.inr st') : st'.visitedInv := by
  cases hos : st.open_set with
  | nil =>
      simp only [greedyStep, hos] at hstep
      exact Sum.noConfusion hstep
  | cons x xs =>
      simp only [greedyStep, hos] at hstep
      by_cases htime : clock iter > T
      · rw [if_pos htime] at hstep; exact Sum.noConfusion hstep
      · rw [if_neg htime] at hstep
        by_cases hvis : (selectMin GEntry.ltKey x xs).1.state ∈ st.visited
        · rw [if_pos hvis] at hstep
          have h1 := Sum.inr.inj hstep
          rw [← h1]
          exact ⟨hinv.1, hinv.2⟩
        · rw [if_neg hvis] at hstep
          by_cases hgoal : (selectMin GEntry.ltKey x xs).1.state.is_goal = true
          · rw [if_pos hgoal] at hstep; exact Sum.noConfusion hstep
          · rw [if_neg hgoal] at hstep
            have h1 := Sum.inr.inj hstep
            rw [← h1]
            rcases greedyExpand_visited h _ _
              ((selectMin GEntry.ltKey x xs).1.state.get_successors)
              (greedyVisitState { st with
                open_set := (selectMin GEntry.ltKey x xs).2 }
                (selectMin GEntry.ltKey x xs).1) with ⟨hv, he⟩
            constructor
            · rw [hv, he]
              simp only [greedyVisitState, List.length_cons]
              rw [hinv.1]
            · rw [hv]
              simp only [greedyVisitState]
              exact List.nodup_cons.mpr ⟨hvis, hinv.2⟩

theorem greedyLoop_visitedInv (h : NQueensState → Int) (T : Nat)
    (clock : Nat → Nat) (init : NQueensState) :
    ∀ (fuel iter : Nat) (st : GState), st.visitedInv →
      (greedyLoop h T clock init fuel iter st).1.states_explored
        = (greedyLoop h T clock init fuel iter st).2.2.visited.length ∧
      (greedyLoop h T clock init fuel iter st).2.2.visited.Nodup := by
  intro fuel
  induction fuel with
  | zero =>
      intro iter st hinv
      simp only [greedyLoop, greedyPartialResult]
      exact ⟨hinv.1, hinv.2⟩
  | succ fuel ih =>
      intro iter st hinv
      rw [greedyLoop]
      cases hstep : greedyStep h T clock iter init st with
      | inl out =>
          simp only []
          exact greedyStep_inl_visitedInv hinv hstep
      | inr st' =>
          simp only []
          exact ih (iter + 1) st' (greedyStep_inr_visitedInv hinv hstep)

/-- C4: in every `GreedySearch.search` run, a popped state that is already
visited is skipped before `states_explored` is incremented and successors of
an expanded state enter the frontier only when unvisited, so no state is
expanded twice: the returned `states_explored` equals the number of
insertions into the visited set (its final size, which is duplicate-free). -/
theorem claim_C4_greedy_visited (h : NQueensState → Int) (init : NQueensState)
    (T : Nat) (clock : Nat → Nat) (fuel : Nat) :
    (greedySearchFull h init T clock fuel).1.states_explored
      = (greedySearchFull h init T clock fuel).2.2.visited.length ∧
    (greedySearchFull h init T clock fuel).2.2.visited.Nodup := by
  apply greedyLoop_visitedInv
  exact ⟨rfl, List.nodup_nil⟩

/-!  ##  C5: timeout handling  -/

/-- C5: in both search loops the timeout test is performed at the top of the
iteration, before the pop: with a nonempty frontier and an elapsed clock
reading exceeding the timeout, the loop immediately returns through the
timeout `return` (`ExitReason.timeout`), with `solution_found = false`, every
counter exactly as accumulated so far, and the internal state untouched (no
entry was popped); no error value exists in the embedding. -/
theorem claim_C5_timeout (h : NQueensState → Int) (T : Nat) (clock : Nat → Nat)
    (iterA iterG fuelA fuelG : Nat) (initA initG : NQueensState)
    (stA : AState) (stG : GState)
    (hA : stA.open_set ≠ []) (hG : stG.open_set ≠ [])
    (htA : clock iterA > T) (htG : clock iterG > T) :
    ((astarLoop h T clock initA (fuelA + 1) iterA stA).1.solution_found = false ∧
     (astarLoop h T clock initA (fuelA + 1) iterA stA).1.states_explored
       = stA.states_explored ∧
     (astarLoop h T clock initA (fuelA + 1) iterA stA).1.states_generated
       = stA.states_generated ∧
     (astarLoop h T clock initA (fuelA + 1) iterA stA).1.max_depth = stA.max_depth ∧
     (astarLoop h T clock initA (fuelA + 1) iterA stA).1.max_f_score
       = stA.max_f_score ∧
     (astarLoop h T clock initA (fuelA + 1) iterA stA).2.1 = ExitReason.timeout ∧
     (astarLoop h T clock initA (fuelA + 1) iterA stA).2.2 = stA) ∧
    ((greedyLoop h T clock initG (fuelG + 1) iterG stG).1.solution_found = false ∧
     (greedyLoop h T clock initG (fuelG + 1) iterG stG).1.states_explored
       = stG.states_explored ∧
     (greedyLoop h T clock initG (fuelG + 1) iterG stG).1.states_generated
       = stG.states_generated ∧
     (greedyLoop h T clock initG (fuelG + 1) iterG stG).1.max_depth = stG.max_depth ∧
     (greedyLoop h T clock initG (fuelG + 1) iterG stG).2.1 = ExitReason.timeout ∧
     (greedyLoop h T clock initG (fuelG + 1) iterG stG).2.2 = stG) := by
  constructor
  · cases hos : stA.open_set with
    | nil => exact absurd hos hA
    | cons x xs =>
        rw [astarLoop]
        simp only [astarStep, hos, if_pos htA]
        simp [astarPartialResult, SearchResult.init]
  · cases hos : stG.open_set with
    | nil => exact absurd hos hG
    | cons x xs =>
        rw [greedyLoop]
        simp only [greedyStep, hos, if_pos htG]
        simp [greedyPartialResult, SearchResult.init]

/-- Witness for C5: a concrete timed-out first iteration (elapsed reading 2,
timeout 1) on the `n = 2` initial frontier of both algorithms. -/
theorem claim_C5_witness :
    ((⟨[⟨0, 0, 0, emptyState 2⟩], [(emptyState 2, 0)], [], 1, 0, 0, 0, 1⟩ :
        AState).open_set ≠ [] ∧
      (⟨[⟨0, 0, 0, emptyState 2⟩], [], [], 1, 0, 0, 1⟩ : GState).open_set ≠ [] ∧
      (fun _ : Nat => 2) 0 > 1) ∧
    ((astarLoop attacking_pairs_heuristic 1 (fun _ => 2) (emptyState 2) 6 0
        ⟨[⟨0, 0, 0, emptyState 2⟩], [(emptyState 2, 0)], [], 1, 0, 0, 0, 1⟩).1.solution_found
      = false ∧
     (astarLoop attacking_pairs_heuristic 1 (fun _ => 2) (emptyState 2) 6 0
        ⟨[⟨0, 0, 0, emptyState 2⟩], [(emptyState 2, 0)], [], 1, 0, 0, 0, 1⟩).2.1
      = ExitReason.timeout ∧
     (greedyLoop attacking_pairs_heuristic 1 (fun _ => 2) (emptyState 2) 6 0
        ⟨[⟨0, 0, 0, emptyState 2⟩], [], [], 1, 0, 0, 1⟩).1.solution_found = false ∧
     (greedyLoop attacking_pairs_heuristic 1 (fun _ => 2) (emptyState 2) 6 0
        ⟨[⟨0, 0, 0, emptyState 2⟩], [], [], 1, 0, 0, 1⟩).2.1 = ExitReason.timeout) := by
  refine ⟨⟨by decide, by decide, by decide⟩, ?_⟩
  have hc := claim_C5_timeout attacking_pairs_heuristic 1 (fun _ => 2) 0 0 5 5
    (emptyState 2) (emptyState 2)
    ⟨[⟨0, 0, 0, emptyState 2⟩], [(emptyState 2, 0)], [], 1, 0, 0, 0, 1⟩
    ⟨[⟨0, 0, 0, emptyState 2⟩], [], [], 1, 0, 0, 1⟩
    (by decide) (by decide) (by decide) (by decide)
  exact ⟨hc.1.1, hc.1.2.2.2.2.2.1, hc.2.1, hc.2.2.2.2.2.1⟩

/-!  ##  C6: boundary sizes n = 1, 2, 3  -/

theorem astarStep_zero_clock (h : NQueensState → Int) (T iter : Nat)
    (init : NQueensState) (st : AState) :
    astarStep h T (fun _ => 0) iter init st
      = astarStep h 0 (fun _ => 0) iter init st := by
  cases hos : st.open_set with
  | nil => simp only [astarStep, hos]
  | cons x xs =>
      simp only [astarStep, hos]
      rw [if_neg (by omega : ¬ ((0 : Nat) > T)), if_neg (by omega : ¬ ((0 : Nat) > 0))]

theorem astarLoop_zero_clock (h : NQueensState → Int) (T : Nat)
    (init : NQueensState) :
    ∀ (fuel iter : Nat) (st : AState),
      astarLoop h T (fun _ => 0) init fuel iter st
        = astarLoop h 0 (fun _ => 0) init fuel iter st := by
  intro fuel
  induction fuel with
  | zero => intro iter st; rfl
  | succ fuel ih =>
      intro iter st
      simp only [astarLoop]
      rw [astarStep_zero_clock h T iter init st]
      cases hstep : astarStep h 0 (fun _ => 0) iter init st with
      | inl out => simp only []
      | inr st' => simp only []; exact ih (iter + 1) st'

theorem greedyStep_zero_clock (h : NQueensState → Int) (T iter : Nat)
    (init : NQueensState) (st : GState) :
    greedyStep h T (fun _ => 0) iter init st
      = greedyStep h 0 (fun _ => 0) iter init st := by
  cases hos : st.open_set with
  | nil => simp only [greedyStep, hos]
  | cons x xs =>
      simp only [greedyStep, hos]
      rw [if_neg (by omega : ¬ ((0 : Nat) > T)), if_neg (by omega : ¬ ((0 : Nat) > 0))]

theorem greedyLoop_zero_clock (h : NQueensState → Int) (T : Nat)
    (init : NQueensState) :
    ∀ (fuel iter : Nat) (st : GState),
      greedyLoop h T (fun _ => 0) init fuel iter st
        = greedyLoop h 0 (fun _ => 0) init fuel iter st := by
  intro fuel
  induction fuel with
  | zero => intro iter st; rfl
  | succ fuel ih =>
      intro iter st
      simp only [greedyLoop]
      rw [greedyStep_zero_clock h T iter init st]
      cases hstep : greedyStep h 0 (fun _ => 0) iter init st with
      | inl out => simp only []
      | inr st' => simp only []; exact ih (iter + 1) st'

/-- C6: for any timeout budget (with the elapsed clock never advancing, so
the timeout can never fire), both algorithms on `n = 1` immediately succeed
with `solution_found = true` and `solution_depth = 1` through the goal
return, while on `n = 2` and `n = 3` they report `solution_found = false` by
running the `while` loop until the frontier is exhausted
(`ExitReason.exhausted`), not through the timeout return. -/
theorem claim_C6_boundary (T : Nat) :
    ((astarSearchFull attacking_pairs_heuristic (emptyState 1) T (fun _ => 0)
        50).1.solution_found = true ∧
     (astarSearchFull attacking_pairs_heuristic (emptyState 1) T (fun _ => 0)
        50).1.solution_depth = 1 ∧
     (astarSearchFull attacking_pairs_heuristic (emptyState 1) T (fun _ => 0)
        50).2.1 = ExitReason.goal) ∧
    ((greedySearchFull attacking_pairs_heuristic (emptyState 1) T (fun _ => 0)
        50).1.solution_found = true ∧
     (greedySearchFull attacking_pairs_heuristic (emptyState 1) T (fun _ => 0)
        50).1.solution_depth = 1 ∧
     (greedySearchFull attacking_pairs_heuristic (emptyState 1) T (fun _ => 0)
        50).2.1 = ExitReason.goal) ∧
    ((astarSearchFull attacking_pairs_heuristic (emptyState 2) T (fun _ => 0)
        50).1.solution_found = false ∧
     (astarSearchFull attacking_pairs_heuristic (emptyState 2) T (fun _ => 0)
        50).2.1 = ExitReason.exhausted) ∧
    ((greedySearchFull attacking_pairs_heuristic (emptyState 2) T (fun _ => 0)
        50).1.solution_found = false ∧
     (greedySearchFull attacking_pairs_heuristic (emptyState 2) T (fun _ => 0)
        50).2.1 = ExitReason.exhausted) ∧
    ((astarSearchFull attacking_pairs_heuristic (emptyState 3) T (fun _ => 0)
        50).1.solution_found = false ∧
     (astarSearchFull attacking_pairs_heuristic (emptyState 3) T (fun _ => 0)
        50).2.1 = ExitReason.exhausted) ∧
    ((greedySearchFull attacking_pairs_heuristic (emptyState 3) T (fun _ => 0)
        50).1.solution_found = false ∧
     (greedySearchFull attacking_pairs_heuristic (emptyState 3) T (fun _ => 0)
        50).2.1 = ExitReason.exhausted) := by
  have hA : ∀ (init : NQueensState) (fuel : Nat),
      astarSearchFull attacking_pairs_heuristic init T (fun _ => 0) fuel
        = astarSearchFull attacking_pairs_heuristic init 0 (fun _ => 0) fuel := by
    intro init fuel
    unfold astarSearchFull
    exact astarLoop_zero_clock attacking_pairs_heuristic T init fuel 0 _
  have hG : ∀ (init : NQueensState) (fuel : Nat),
      greedySearchFull attacking_pairs_heuristic init T (fun _ => 0) fuel
        = greedySearchFull attacking_pairs_heuristic init 0 (fun _ => 0) fuel := by
    intro init fuel
    unfold greedySearchFull
    exact greedyLoop_zero_clock attacking_pairs_heuristic T init fuel 0 _
  rw [hA, hA, hA, hG, hG, hG]
  refine ⟨⟨by decide, by decide, by decide⟩, ⟨by decide, by decide, by decide⟩,
    ⟨by decide, by decide⟩, ⟨by decide, by decide⟩,
    ⟨by decide, by decide⟩, ⟨by decide, by decide⟩⟩

/-!  ##  C10: the degenerate board n = 0  -/

/-- C10: the empty board of size 0 already satisfies `is_goal` (no sentinel
entry, zero conflicts), and both search entry points — which perform no
board-size validation of their own — immediately return
`solution_found = true` with `solution_depth = 0` and a solution path
consisting of just the initial state. -/
theorem claim_C10_zero_board :
    (emptyState 0).is_goal = true ∧
    (emptyState 0).positions = [] ∧
    ((astarSearchFull attacking_pairs_heuristic (emptyState 0) 300 (fun _ => 0)
        10).1.solution_found = true ∧
     (astarSearchFull attacking_pairs_heuristic (emptyState 0) 300 (fun _ => 0)
        10).1.solution_depth = 0 ∧
     (astarSearchFull attacking_pairs_heuristic (emptyState 0) 300 (fun _ => 0)
        10).1.solution_path = [emptyState 0] ∧
     (astarSearchFull attacking_pairs_heuristic (emptyState 0) 300 (fun _ => 0)
        10).1.states_explored = 1) ∧
    ((greedySearchFull attacking_pairs_heuristic (emptyState 0) 300 (fun _ => 0)
        10).1.solution_found = true ∧
     (greedySearchFull attacking_pairs_heuristic (emptyState 0) 300 (fun _ => 0)
        10).1.solution_depth = 0 ∧
     (greedySearchFull attacking_pairs_heuristic (emptyState 0) 300 (fun _ => 0)
        10).1.solution_path = [emptyState 0] ∧
     (greedySearchFull attacking_pairs_heuristic (emptyState 0) 300 (fun _ => 0)
        10).1.states_explored = 1) := by
  refine ⟨by decide, by decide, ⟨by decide, by decide, by decide, by decide⟩,
    ⟨by decide, by decide, by decide, by decide⟩⟩

/-!  ##  C8: board-size validation in main.py  -/

/-- The possible outcomes of `main()` in main.py: early return on invalid
`n`, early return when the user declines the `n > 20` confirmation, or a
completed run of the selected searches. -/
inductive MainOutcome where
  | invalid_n
  | aborted
  | completed (results : List (String × SearchResult))
deriving DecidableEq

/-- `solve_n_queens` of main.py with the default algorithm list: runs A* and
greedy search on the empty board with `attacking_pairs_heuristic` and the
default timeout of 300. -/
def solve_n_queens (n : Nat) (clock : Nat → Nat) (fuel : Nat) :
    List (String × SearchResult) :=
  [("A*", (astarSearchFull attacking_pairs_heuristic (emptyState n) 300 clock
      fuel).1),
   ("Busca Gulosa", (greedySearchFull attacking_pairs_heuristic (emptyState n)
      300 clock fuel).1)]

/-- `main()` of main.py (default `--algorithm both`): reject `n <= 0` before
any search, then the `n > 20` interactive confirmation (modelled by the
`confirm_large` flag), then `solve_n_queens`. -/
def mainRun (n : Int) (confirm_large : Bool) (clock : Nat → Nat) (fuel : Nat) :
    MainOutcome :=
  if n ≤ 0 then MainOutcome.invalid_n
  else if n > 20 ∧ confirm_large = false then MainOutcome.aborted
  else MainOutcome.completed (solve_n_queens n.toNat clock fuel)

/-- C8: every board size `n ≤ 0` is rejected by `main` as a validation error
before any search begins — the outcome is the early `invalid_n` return, in
which no search (the `completed` branch) was ever started, so no error can be
raised mid-search for such `n`. -/
theorem claim_C8_rejects_nonpositive (n : Int) (hn : n ≤ 0)
    (confirm_large : Bool) (clock : Nat → Nat) (fuel : Nat) :
    mainRun n confirm_large clock fuel = MainOutcome.invalid_n := by
  unfold mainRun
  rw [if_pos hn]

/-- Witness for C8: the concrete inputs `n = 0` and `n = -3` are rejected. -/
theorem claim_C8_witness :
    ((0 : Int) ≤ 0 ∧ (-3 : Int) ≤ 0) ∧
    mainRun 0 true (fun _ => 0) 10 = MainOutcome.invalid_n ∧
    mainRun (-3) false (fun _ => 0) 10 = MainOutcome.invalid_n :=
  ⟨⟨by decide, by decide⟩,
    claim_C8_rejects_nonpositive 0 (by decide) true (fun _ => 0) 10,
    claim_C8_rejects_nonpositive (-3) (by decide) false (fun _ => 0) 10⟩

/-!  ##  C3: A* solution depth is the minimum number of placements  -/

theorem indexOfEmpty_spec :
    ∀ (l : List Int) (r : Nat), indexOfEmpty l = some r →
      r < l.length ∧ l.get? r = some (-1) := by
  intro l
  induction l with
  | nil => intro r hr; exact absurd hr (by simp [indexOfEmpty])
  | cons x xs ih =>
      intro r hr
      rw [indexOfEmpty] at hr
      by_cases hx : x = -1
      · rw [if_pos hx] at hr
        have h1 := Option.some.inj hr
        rw [← h1]
        exact ⟨by simp, by simp [hx]⟩
      · rw [if_neg hx] at hr
        cases hi : indexOfEmpty xs with
        | none => rw [hi] at hr; exact absurd hr (by simp)
        | some r' =>
            rw [hi] at hr
            simp only [Option.map_some'] at hr
            have h1 : r = r' + 1 := (Option.some.inj hr).symm
            rcases ih r' hi with ⟨hlt, hget⟩
            rw [h1]
            constructor
            · simp only [List.length_cons]; omega
            · simpa using hget

theorem countP_set_plus_one :
    ∀ (l : List Int) (r : Nat) (c : Int), l.get? r = some (-1) → c ≠ -1 →
      (l.set r c).countP (fun pos => pos != -1)
        = l.countP (fun pos => pos != -1) + 1 := by
  intro l
  induction l with
  | nil => intro r c hr _; exact absurd hr (by simp)
  | cons x xs ih =>
      intro r c hr hc
      cases r with
      | zero =>
          have hx : x = -1 := by simpa using hr
          rw [List.set_cons_zero, List.countP_cons, List.countP_cons, hx]
          simp [hc]
      | succ r' =>
          have hr' : xs.get? r' = some (-1) := by simpa using hr
          rw [List.set_cons_succ, List.countP_cons, List.countP_cons, ih r' c hr' hc]
          omega

/-- A successor-generator step places exactly one more queen. -/
theorem count_queens_succ {s t : NQueensState} (ht : t ∈ s.get_successors) :
    t.count_queens = s.count_queens + 1 := by
  rcases mem_get_successors_shape ht with ⟨r, col, hrow, _, hts, _⟩
  unfold NQueensState.get_next_empty_row at hrow
  rcases indexOfEmpty_spec s.positions r hrow with ⟨_, hget⟩
  have hcol : ((col : Int)) ≠ -1 := by omega
  rw [hts]
  unfold NQueensState.count_queens
  exact countP_set_plus_one s.positions r ((col : Int)) hget hcol

theorem count_queens_empty (n : Nat) : (emptyState n).count_queens = 0 := by
  unfold NQueensState.count_queens emptyState
  simp

theorem reachesIn_count {n k : Nat} {t : NQueensState}
    (hr : reachesIn (emptyState n) k t) :
    t.count_queens = k ∧ t.n = n ∧ t.positions.length = n := by
  induction hr with
  | refl => exact ⟨count_queens_empty n, rfl, by simp [emptyState]⟩
  | step hrk hmem ih =>
      rcases ih with ⟨hcount, hn, hlen⟩
      rcases mem_get_successors_n hmem with ⟨hn', hlen'⟩
      exact ⟨by rw [count_queens_succ hmem, hcount], by rw [hn', hn],
        by rw [hlen', hlen]⟩

/-- A goal state with a full-length position list has all `n` queens. -/
theorem is_goal_count_queens {t : NQueensState} (hg : t.is_goal = true) :
    t.count_queens = t.positions.length := by
  unfold NQueensState.is_goal at hg
  by_cases hc : t.positions.contains (-1)
  · rw [if_pos hc] at hg; exact absurd hg (by simp)
  · unfold NQueensState.count_queens
    rw [List.countP_eq_length]
    intro a ha
    have : a ≠ -1 := by
      intro h1
      rw [h1] at ha
      exact hc (List.elem_eq_true_of_mem ha)
    simp [this]

/-- Any goal state reachable from the empty board takes exactly `n` steps. -/
theorem reachesIn_goal_eq_n {n k : Nat} {t : NQueensState}
    (hr : reachesIn (emptyState n) k t) (hg : t.is_goal = true) : k = n := by
  rcases reachesIn_count hr with ⟨hcount, _, hlen⟩
  rw [← hcount, is_goal_count_queens hg, hlen]

/-- The A* reachability invariant: every frontier entry's state is reachable
from the initial state in exactly `g` generator steps. -/
def AState.reachInv (init : NQueensState) (st : AState) : Prop :=
  ∀ e ∈ st.open_set, reachesIn init e.g e.state

theorem astarStep_inl_reach {h : NQueensState → Int} {T : Nat} {clock : Nat → Nat}
    {iter : Nat} {init : NQueensState} {st : AState}
    {out : SearchResult × ExitReason × AState}
    (hinv : st.reachInv init)
    (hstep : astarStep h T clock iter init st = Sum.inl out) :
    out.1.solution_found = true →
      ∃ s, out.1.solution = some s ∧
        reachesIn init out.1.solution_depth s ∧ s.is_goal = true := by
  intro hfound
  cases hos : st.open_set with
  | nil =>
      simp only [astarStep, hos] at hstep
      have h1 := Sum.inl.inj hstep
      rw [← h1] at hfound
      exact absurd hfound (by simp [astarPartialResult, SearchResult.init])
  | cons x xs =>
      simp only [astarStep, hos] at hstep
      by_cases htime : clock iter > T
      · rw [if_pos htime] at hstep
        have h1 := Sum.inl.inj hstep
        rw [← h1] at hfound
        exact absurd hfound (by simp [astarPartialResult, SearchResult.init])
      · rw [if_neg htime] at hstep
        by_cases hgoal : (selectMin AEntry.ltKey x xs).1.state.is_goal = true
        · rw [if_pos hgoal] at hstep
          have h1 := Sum.inl.inj hstep
          have hm : (selectMin AEntry.ltKey x xs).1 ∈ st.open_set := by
            rw [hos]
            rcases selectMin_fst_mem AEntry.ltKey x xs with hm | hm
            · rw [hm]; exact List.mem_cons_self x xs
            · exact List.mem_cons_of_mem x hm
          refine ⟨(selectMin AEntry.ltKey x xs).1.state, ?_, ?_, hgoal⟩
          · rw [← h1]; rfl
          · rw [← h1]
            exact hinv _ hm
        · rw [if_neg hgoal] at hstep
          exact Sum.noConfusion hstep

theorem astarStep_inr_reach {h : NQueensState → Int} {T : Nat} {clock : Nat → Nat}
    {iter : Nat} {init : NQueensState} {st st' : AState}
    (hinv : st.reachInv init)
    (hstep : astarStep h T clock iter init st = Sum.inr st') :
    st'.reachInv init := by
  cases hos : st.open_set with
  | nil =>
      simp only [astarStep, hos] at hstep
      exact Sum.noConfusion hstep
  | cons x xs =>
      simp only [astarStep, hos] at hstep
      by_cases htime : clock iter > T
      · rw [if_pos htime] at hstep; exact Sum.noConfusion hstep
      · rw [if_neg htime] at hstep
        by_cases hgoal : (selectMin AEntry.ltKey x xs).1.state.is_goal = true
        · rw [if_pos hgoal] at hstep; exact Sum.noConfusion hstep
        · rw [if_neg hgoal] at hstep
          have h1 := Sum.inr.inj hstep
          rw [← h1]
          intro e he
          have hm : (selectMin AEntry.ltKey x xs).1 ∈ st.open_set := by
            rw [hos]
            rcases selectMin_fst_mem AEntry.ltKey x xs with hm | hm
            · rw [hm]; exact List.mem_cons_self x xs
            · exact List.mem_cons_of_mem x hm
          rcases astarExpand_open_mem h _ _ _ _ e he with h2 | h2
          · rcases selectMin_snd_mem AEntry.ltKey x xs e h2 with h3 | h3
            · apply hinv; rw [hos, h3]; exact List.mem_cons_self x xs
            · apply hinv; rw [hos]; exact List.mem_cons_of_mem x h3
          · rw [h2.2]
            exact reachesIn.step (hinv _ hm) h2.1

theorem astarLoop_found_reach (h : NQueensState → Int) (T : Nat)
    (clock : Nat → Nat) (init : NQueensState) :
    ∀ (fuel iter : Nat) (st : AState), st.reachInv init →
      ((astarLoop h T clock init fuel iter st).1.solution_found = true →
        ∃ s, (astarLoop h T clock init fuel iter st).1.solution = some s ∧
          reachesIn init
            (astarLoop h T clock init fuel iter st).1.solution_depth s ∧
          s.is_goal = true) := by
  intro fuel
  induction fuel with
  | zero =>
      intro iter st _ hfound
      exact absurd hfound (by simp [astarLoop, astarPartialResult, SearchResult.init])
  | succ fuel ih =>
      intro iter st hinv
      rw [astarLoop]
      cases hstep : astarStep h T clock iter init st with
      | inl out =>
          simp only []
          exact astarStep_inl_reach hinv hstep
      | inr st' =>
          simp only []
          exact ih (iter + 1) st' (astarStep_inr_reach hinv hstep)

/-- C3: whenever A* with `remaining_queens_heuristic` (started from the empty
board) reports a solution, the returned `solution_depth` is the least number
of single-queen placements in which any goal state reachable from the
initial state can be reached (indeed every such goal sits at exactly `n`
placements, and the solution itself realises that bound). -/
theorem claim_C3_astar_depth_optimal (n T fuel : Nat) (clock : Nat → Nat)
    (hfound : (astarSearchFull remaining_queens_heuristic (emptyState n) T clock
      fuel).1.solution_found = true) :
    IsLeast {k | ∃ t, reachesIn (emptyState n) k t ∧ t.is_goal = true}
      ((astarSearchFull remaining_queens_heuristic (emptyState n) T clock
        fuel).1.solution_depth) := by
  unfold astarSearchFull at hfound ⊢
  have hinv : AState.reachInv (emptyState n)
      { open_set := [⟨0, 0, 0, emptyState n⟩],
        g_score := [(emptyState n, 0)],
        came_from := [],
        states_generated := 1,
        states_explored := 0,
        max_depth := 0,
        max_f_score := 0,
        counter := 1 } := by
    intro e he
    have he' : e = ⟨0, 0, 0, emptyState n⟩ := by simpa using he
    rw [he']
    exact reachesIn.refl
  rcases astarLoop_found_reach remaining_queens_heuristic T clock (emptyState n)
    fuel 0 _ hinv hfound with ⟨s, _, hreach, hgoal⟩
  have hdep := reachesIn_goal_eq_n hreach hgoal
  constructor
  · exact ⟨s, hreach, hgoal⟩
  · intro k hk
    rcases hk with ⟨t, hrt, hgt⟩
    rw [hdep, reachesIn_goal_eq_n hrt hgt]

/-- Witness for C3: the concrete `n = 4` and `n = 5` A* runs with
`remaining_queens_heuristic` do find a solution, and the theorem places their
`solution_depth` at the minimum placement count. -/
theorem claim_C3_witness :
    ((astarSearchFull remaining_queens_heuristic (emptyState 4) 300 (fun _ => 0)
        80).1.solution_found = true ∧
     (astarSearchFull remaining_queens_heuristic (emptyState 5) 300 (fun _ => 0)
        200).1.solution_found = true) ∧
    IsLeast {k | ∃ t, reachesIn (emptyState 4) k t ∧ t.is_goal = true}
      ((astarSearchFull remaining_queens_heuristic (emptyState 4) 300
        (fun _ => 0) 80).1.solution_depth) ∧
    IsLeast {k | ∃ t, reachesIn (emptyState 5) k t ∧ t.is_goal = true}
      ((astarSearchFull remaining_queens_heuristic (emptyState 5) 300
        (fun _ => 0) 200).1.solution_depth) :=
  ⟨⟨by decide, by decide⟩,
    claim_C3_astar_depth_optimal 4 300 80 (fun _ => 0) (by decide),
    claim_C3_astar_depth_optimal 5 300 200 (fun _ => 0) (by decide)⟩

/-!  ##  C9: determinism across runs  -/

/-- A `SearchResult` with its wall-clock field normalised away: the
(deterministic) algorithmic content of a run. -/
def SearchResult.core (r : SearchResult) : SearchResult :=
  { r with execution_time := 0 }

/-- Step outputs agree up to `execution_time`. -/
def aOutRel : ((SearchResult × ExitReason × AState) ⊕ AState) →
    ((SearchResult × ExitReason × AState) ⊕ AState) → Prop
  | Sum.inl a, Sum.inl b => a.1.core = b.1.core ∧ a.2.1 = b.2.1 ∧ a.2.2 = b.2.2
  | Sum.inr s1, Sum.inr s2 => s1 = s2
  | _, _ => False

theorem astarStep_clock_rel (h : NQueensState → Int) (T : Nat)
    (c1 c2 : Nat → Nat) (iter : Nat) (init : NQueensState) (st : AState)
    (h1 : ¬ c1 iter > T) (h2 : ¬ c2 iter > T) :
    aOutRel (astarStep h T c1 iter init st) (astarStep h T c2 iter init st) := by
  cases hos : st.open_set with
  | nil =>
      simp only [astarStep, hos]
      exact ⟨rfl, rfl, rfl⟩
  | cons x xs =>
      simp only [astarStep, hos]
      rw [if_neg h1, if_neg h2]
      by_cases hgoal : (selectMin AEntry.ltKey x xs).1.state.is_goal = true
      · rw [if_pos hgoal, if_pos hgoal]
        exact ⟨rfl, rfl, rfl⟩
      · rw [if_neg hgoal, if_neg hgoal]
        exact rfl

theorem astarLoop_clock_eq (h : NQueensState → Int) (T : Nat)
    (c1 c2 : Nat → Nat) (init : NQueensState)
    (hc1 : ∀ i, ¬ c1 i > T) (hc2 : ∀ i, ¬ c2 i > T) :
    ∀ (fuel iter : Nat) (st : AState),
      (astarLoop h T c1 init fuel iter st).1.core
        = (astarLoop h T c2 init fuel iter st).1.core ∧
      (astarLoop h T c1 init fuel iter st).2.1
        = (astarLoop h T c2 init fuel iter st).2.1 ∧
      (astarLoop h T c1 init fuel iter st).2.2
        = (astarLoop h T c2 init fuel iter st).2.2 := by
  intro fuel
  induction fuel with
  | zero => intro iter st; exact ⟨rfl, rfl, rfl⟩
  | succ fuel ih =>
      intro iter st
      have hrel := astarStep_clock_rel h T c1 c2 iter init st (hc1 iter) (hc2 iter)
      cases hs1 : astarStep h T c1 iter init st with
      | inl o1 =>
          cases hs2 : astarStep h T c2 iter init st with
          | inl o2 =>
              rw [hs1, hs2] at hrel
              simp only [astarLoop, hs1, hs2]
              exact hrel
          | inr s2 =>
              rw [hs1, hs2] at hrel
              exact hrel.elim
      | inr s1 =>
          cases hs2 : astarStep h T c2 iter init st with
          | inl o2 =>
              rw [hs1, hs2] at hrel
              exact hrel.elim
          | inr s2 =>
              rw [hs1, hs2] at hrel
              have hrel' : s1 = s2 := hrel
              simp only [astarLoop, hs1, hs2]
              rw [hrel']
              exact ih (iter + 1) s2

/-- Greedy step outputs agree up to `execution_time`. -/
def gOutRel : ((SearchResult × ExitReason × GState) ⊕ GState) →
    ((SearchResult × ExitReason × GState) ⊕ GState) → Prop
  | Sum.inl a, Sum.inl b => a.1.core = b.1.core ∧ a.2.1 = b.2.1 ∧ a.2.2 = b.2.2
  | Sum.inr s1, Sum.inr s2 => s1 = s2
  | _, _ => False

theorem greedyStep_clock_rel (h : NQueensState → Int) (T : Nat)
    (c1 c2 : Nat → Nat) (iter : Nat) (init : NQueensState) (st : GState)
    (h1 : ¬ c1 iter > T) (h2 : ¬ c2 iter > T) :
    gOutRel (greedyStep h T c1 iter init st) (greedyStep h T c2 iter init st) := by
  cases hos : st.open_set with
  | nil =>
      simp only [greedyStep, hos]
      exact ⟨rfl, rfl, rfl⟩
  | cons x xs =>
      simp only [greedyStep, hos]
      rw [if_neg h1, if_neg h2]
      by_cases hvis : (selectMin GEntry.ltKey x xs).1.state ∈ st.visited
      · rw [if_pos hvis, if_pos hvis]
        exact rfl
      · rw [if_neg hvis, if_neg hvis]
        by_cases hgoal : (selectMin GEntry.ltKey x xs).1.state.is_goal = true
        · rw [if_pos hgoal, if_pos hgoal]
          exact ⟨rfl, rfl, rfl⟩
        · rw [if_neg hgoal, if_neg hgoal]
          exact rfl

theorem greedyLoop_clock_eq (h : NQueensState → Int) (T : Nat)
    (c1 c2 : Nat → Nat) (init : NQueensState)
    (hc1 : ∀ i, ¬ c1 i > T) (hc2 : ∀ i, ¬ c2 i > T) :
    ∀ (fuel iter : Nat) (st : GState),
      (greedyLoop h T c1 init fuel iter st).1.core
        = (greedyLoop h T c2 init fuel iter st).1.core ∧
      (greedyLoop h T c1 init fuel iter st).2.1
        = (greedyLoop h T c2 init fuel iter st).2.1 ∧
      (greedyLoop h T c1 init fuel iter st).2.2
        = (greedyLoop h T c2 init fuel iter st).2.2 := by
  intro fuel
  induction fuel with
  | zero => intro iter st; exact ⟨rfl, rfl, rfl⟩
  | succ fuel ih =>
      intro iter st
      have hrel := greedyStep_clock_rel h T c1 c2 iter init st (hc1 iter) (hc2 iter)
      cases hs1 : greedyStep h T c1 iter init st with
      | inl o1 =>
          cases hs2 : greedyStep h T c2 iter init st with
          | inl o2 =>
              rw [hs1, hs2] at hrel
              simp only [greedyLoop, hs1, hs2]
              exact hrel
          | inr s2 =>
              rw [hs1, hs2] at hrel
              exact hrel.elim
      | inr s1 =>
          cases hs2 : greedyStep h T c2 iter init st with
          | inl o2 =>
              rw [hs1, hs2] at hrel
              exact hrel.elim
          | inr s2 =>
              rw [hs1, hs2] at hrel
              have hrel' : s1 = s2 := hrel
              simp only [greedyLoop, hs1, hs2]
              rw [hrel']
              exact ih (iter + 1) s2

theorem core_eq_fields {r1 r2 : SearchResult} (hc : r1.core = r2.core) :
    r1.solution_found = r2.solution_found ∧
    r1.solution_depth = r2.solution_depth ∧
    r1.states_explored = r2.states_explored ∧
    r1.states_generated = r2.states_generated := by
  have h1 : r1.core.solution_found = r2.core.solution_found := congrArg _ hc
  have h2 : r1.core.solution_depth = r2.core.solution_depth := congrArg _ hc
  have h3 : r1.core.states_explored = r2.core.states_explored := congrArg _ hc
  have h4 : r1.core.states_generated = r2.core.states_generated := congrArg _ hc
  exact ⟨h1, h2, h3, h4⟩

/-- C9: two runs of the same algorithm with the same heuristic and board
size agree on `solution_found`, `solution_depth`, `states_explored` and
`states_generated` (given the implementation's deterministic tie-breaking;
only wall-clock timing may differ between the runs, modelled by two
arbitrary clocks that stay within the timeout budget). -/
theorem claim_C9_repeat_runs (h : NQueensState → Int) (n T fuel : Nat)
    (c1 c2 : Nat → Nat) (hc1 : ∀ i, ¬ c1 i > T) (hc2 : ∀ i, ¬ c2 i > T) :
    ((astarSearchFull h (emptyState n) T c1 fuel).1.solution_found
        = (astarSearchFull h (emptyState n) T c2 fuel).1.solution_found ∧
      (astarSearchFull h (emptyState n) T c1 fuel).1.solution_depth
        = (astarSearchFull h (emptyState n) T c2 fuel).1.solution_depth ∧
      (astarSearchFull h (emptyState n) T c1 fuel).1.states_explored
        = (astarSearchFull h (emptyState n) T c2 fuel).1.states_explored ∧
      (astarSearchFull h (emptyState n) T c1 fuel).1.states_generated
        = (astarSearchFull h (emptyState n) T c2 fuel).1.states_generated) ∧
    ((greedySearchFull h (emptyState n) T c1 fuel).1.solution_found
        = (greedySearchFull h (emptyState n) T c2 fuel).1.solution_found ∧
      (greedySearchFull h (emptyState n) T c1 fuel).1.solution_depth
        = (greedySearchFull h (emptyState n) T c2 fuel).1.solution_depth ∧
      (greedySearchFull h (emptyState n) T c1 fuel).1.states_explored
        = (greedySearchFull h (emptyState n) T c2 fuel).1.states_explored ∧
      (greedySearchFull h (emptyState n) T c1 fuel).1.states_generated
        = (greedySearchFull h (emptyState n) T c2 fuel).1.states_generated) := by
  have hA := astarLoop_clock_eq h T c1 c2 (emptyState n) hc1 hc2 fuel 0
    { open_set := [⟨0, 0, 0, emptyState n⟩],
      g_score := [(emptyState n, 0)],
      came_from := [],
      states_generated := 1,
      states_explored := 0,
      max_depth := 0,
      max_f_score := 0,
      counter := 1 }
  have hG := greedyLoop_clock_eq h T c1 c2 (emptyState n) hc1 hc2 fuel 0
    { open_set := [⟨h (emptyState n), 0, 0, emptyState n⟩],
      came_from := [],
      visited := [],
      states_generated := 1,
      states_explored := 0,
      max_depth := 0,
      counter := 1 }
  exact ⟨core_eq_fields hA.1, core_eq_fields hG.1⟩

/-- Witness for C9: two concrete `n = 4` runs whose clocks differ (elapsed 0
vs elapsed 7 per iteration, timeout 100) agree on all four fields for both
algorithms. -/
theorem claim_C9_witness :
    ((∀ i : Nat, ¬ (fun _ : Nat => 0) i > 100) ∧
      (∀ i : Nat, ¬ (fun _ : Nat => 7) i > 100)) ∧
    ((astarSearchFull attacking_pairs_heuristic (emptyState 4) 100
        (fun _ => 0) 60).1.solution_found
      = (astarSearchFull attacking_pairs_heuristic (emptyState 4) 100
        (fun _ => 7) 60).1.solution_found ∧
     (greedySearchFull attacking_pairs_heuristic (emptyState 4) 100
        (fun _ => 0) 60).1.states_explored
      = (greedySearchFull attacking_pairs_heuristic (emptyState 4) 100
        (fun _ => 7) 60).1.states_explored) :=
  ⟨⟨fun _ => (by decide : ¬ (0 : Nat) > 100), fun _ => (by decide : ¬ (7 : Nat) > 100)⟩,
    (claim_C9_repeat_runs attacking_pairs_heuristic 4 100 60 (fun _ => 0)
      (fun _ => 7) (fun _ => (by decide : ¬ (0 : Nat) > 100))
      (fun _ => (by decide : ¬ (7 : Nat) > 100))).1.1,
    (claim_C9_repeat_runs attacking_pairs_heuristic 4 100 60 (fun _ => 0)
      (fun _ => 7) (fun _ => (by decide : ¬ (0 : Nat) > 100))
      (fun _ => (by decide : ¬ (7 : Nat) > 100))).2.2.2.1⟩

/-!  ##  C7: the `__lt__` heap tie-breaking order  -/

/-- Python's string `<`: code-point-lexicographic comparison of the
character sequences. -/
def strLtB : List Char → List Char → Bool
  | [], [] => false
  | [], _ :: _ => true
  | _ :: _, [] => false
  | a :: as, b :: bs =>
      if a < b then true else if b < a then false else strLtB as bs

/-- The character sequence of `", ".join(str(x) for x in l)`: the body of
Python's `str` of a list of ints. -/
def pyBody : List Int → List Char
  | [] => []
  | x :: xs =>
      (toString x).data ++ (if xs.isEmpty then [] else [',', ' ']) ++ pyBody xs

/-- The character sequence of Python's `str(l)` for a list of ints. -/
def pyStrData (l : List Int) : List Char :=
  '[' :: (pyBody l ++ [']'])

/-- `NQueensState.__lt__` of state.py:
`str(self.positions) < str(other.positions)` — a comparison of the decimal
string renderings, not of the integer sequences. -/
def NQueensState.lt (a b : NQueensState) : Bool :=
  strLtB (pyStrData a.positions) (pyStrData b.positions)

/-- Modelled from the spec's words (§3, C7): the order "defined
lexicographically over the row-assignment sequence (compare as sequences of
integers, empty/sentinel sorts as a fixed value, e.g. less than any real
column)" — ordinary integer lexicographic order (the sentinel `-1` is
already below every real column index). -/
def intLexLt : List Int → List Int → Bool
  | [], [] => false
  | [], _ :: _ => true
  | _ :: _, [] => false
  | a :: as, b :: bs =>
      if a < b then true else if b < a then false else intLexLt as bs

/-- The original claim C7 is false: on an 11×11 board, the states with first
rows 2 and 10 compare as strings `"[2, ...]" > "[10, ...]"` (character `'2'`
vs `'1'`), while the integer lexicographic order puts `2` before `10`. -/
theorem claim_C7_counterexample :
    ¬ ((NQueensState.mk 11 [2, -1, -1, -1, -1, -1, -1, -1, -1, -1, -1]).lt
        (NQueensState.mk 11 [10, -1, -1, -1, -1, -1, -1, -1, -1, -1, -1]) = true ↔
      intLexLt [2, -1, -1, -1, -1, -1, -1, -1, -1, -1, -1]
        [10, -1, -1, -1, -1, -1, -1, -1, -1, -1, -1] = true) := by
  decide

theorem strLtB_append_left :
    ∀ (a s t : List Char), strLtB (a ++ s) (a ++ t) = strLtB s t := by
  intro a
  induction a with
  | nil => intro s t; rfl
  | cons c cs ih =>
      intro s t
      simp only [List.cons_append, strLtB, lt_irrefl, if_neg (lt_irrefl c)]
      exact ih s t

theorem strLtB_cons_ne (c d : Char) (hcd : c ≠ d) (u v : List Char) :
    strLtB (c :: u) (d :: v) = decide (c < d) := by
  rw [strLtB]
  by_cases h : c < d
  · rw [if_pos h]
    simp [h]
  · rw [if_neg h]
    have h2 : d < c := lt_of_le_of_ne (not_lt.mp h) (Ne.symm hcd)
    rw [if_pos h2]
    simp [h]

theorem intLexLt_cons_ne (x y : Int) (hxy : x ≠ y) (xs ys : List Int) :
    intLexLt (x :: xs) (y :: ys) = decide (x < y) := by
  rw [intLexLt]
  by_cases h : x < y
  · rw [if_pos h]
    simp [h]
  · rw [if_neg h]
    have h2 : y < x := lt_of_le_of_ne (not_lt.mp h) (Ne.symm hxy)
    rw [if_pos h2]
    simp [h]

/-- For single-digit entries (sentinel `-1` or columns `0..9`), the first
character of the decimal rendering decides the string comparison exactly as
the integers compare. -/
theorem head_render_decides (x y : Int)
    (hx : x = -1 ∨ (0 ≤ x ∧ x ≤ 9)) (hy : y = -1 ∨ (0 ≤ y ∧ y ≤ 9))
    (hxy : x ≠ y) (u v : List Char) :
    strLtB ((toString x).data ++ u) ((toString y).data ++ v)
      = decide (x < y) := by
  rcases hx with rfl | ⟨hx0, hx9⟩ <;> rcases hy with rfl | ⟨hy0, hy9⟩
  · exact absurd rfl hxy
  · interval_cases y <;>
      exact (strLtB_cons_ne _ _ (by decide) _ _).trans (by decide)
  · interval_cases x <;>
      exact (strLtB_cons_ne _ _ (by decide) _ _).trans (by decide)
  · interval_cases x <;> interval_cases y <;>
      first
      | exact absurd rfl hxy
      | exact (strLtB_cons_ne _ _ (by decide) _ _).trans (by decide)

theorem pyBody_lt (xs : List Int) : ∀ (ys : List Int), xs.length = ys.length →
    (∀ x ∈ xs, x = -1 ∨ (0 ≤ x ∧ x ≤ 9)) →
    (∀ y ∈ ys, y = -1 ∨ (0 ≤ y ∧ y ≤ 9)) →
    strLtB (pyBody xs ++ [']']) (pyBody ys ++ [']']) = intLexLt xs ys := by
  induction xs with
  | nil =>
      intro ys hlen _ _
      have hys : ys = [] := List.length_eq_zero.mp hlen.symm
      subst hys
      decide
  | cons x xs ih =>
      intro ys hlen hxs hys
      cases ys with
      | nil => simp at hlen
      | cons y ys' =>
          have hlen' : xs.length = ys'.length := by simpa using hlen
          by_cases hxy : x = y
          · subst hxy
            have hsep : xs.isEmpty = ys'.isEmpty := by
              cases xs <;> cases ys' <;> simp_all
            simp only [pyBody, List.append_assoc]
            rw [hsep, strLtB_append_left, strLtB_append_left,
              ih ys' hlen' (fun z hz => hxs z (List.mem_cons_of_mem x hz))
                (fun z hz => hys z (List.mem_cons_of_mem x hz)),
              show intLexLt (x :: xs) (x :: ys') = intLexLt xs ys' by
                rw [intLexLt]; simp [lt_irrefl]]
          · simp only [pyBody, List.append_assoc]
            rw [head_render_decides x y (hxs x (List.mem_cons_self x xs))
                (hys y (List.mem_cons_self y ys')) hxy,
              intLexLt_cons_ne x y hxy]

/-- C7 (amended): `NQueensState.__lt__` compares the decimal *string*
renderings of the two position lists (`str(positions)`), which is a strict
total order but not integer lexicographic order in general; it agrees with
the integer lexicographic order of the claim exactly on states whose entries
are the sentinel `-1` or single-digit columns `0..9` — i.e. on all states of
boards with `n ≤ 10` — and diverges once two-digit column indices occur
(see the counterexample at `n = 11`). -/
theorem claim_C7_lt_amended (a b : NQueensState)
    (hlen : a.positions.length = b.positions.length)
    (ha : ∀ x ∈ a.positions, x = -1 ∨ (0 ≤ x ∧ x ≤ 9))
    (hb : ∀ y ∈ b.positions, y = -1 ∨ (0 ≤ y ∧ y ≤ 9)) :
    a.lt b = intLexLt a.positions b.positions := by
  unfold NQueensState.lt pyStrData
  rw [show ('[' :: (pyBody a.positions ++ [']']))
      = ['['] ++ (pyBody a.positions ++ [']']) from rfl,
    show ('[' :: (pyBody b.positions ++ [']']))
      = ['['] ++ (pyBody b.positions ++ [']']) from rfl,
    strLtB_append_left]
  exact pyBody_lt a.positions b.positions hlen ha hb

/-- Witness for the amended C7: two concrete same-size single-digit states
(the order of the code and the claimed integer lexicographic order agree). -/
theorem claim_C7_amended_witness :
    ((NQueensState.mk 4 [1, 3, 0, 2]).positions.length
        = (NQueensState.mk 4 [2, -1, -1, -1]).positions.length ∧
      (∀ x ∈ (NQueensState.mk 4 [1, 3, 0, 2]).positions,
        x = -1 ∨ (0 ≤ x ∧ x ≤ 9)) ∧
      (∀ y ∈ (NQueensState.mk 4 [2, -1, -1, -1]).positions,
        y = -1 ∨ (0 ≤ y ∧ y ≤ 9))) ∧
    (NQueensState.mk 4 [1, 3, 0, 2]).lt (NQueensState.mk 4 [2, -1, -1, -1])
      = intLexLt [1, 3, 0, 2] [2, -1, -1, -1] :=
  ⟨⟨by decide, by decide, by decide⟩,
    claim_C7_lt_amended (NQueensState.mk 4 [1, 3, 0, 2])
      (NQueensState.mk 4 [2, -1, -1, -1]) (by decide) (by decide) (by decide)⟩
